import Mathlib

/-!
Verification of the `bytesutil` endian-aware scalar codec and byte-buffer view.

Shallow embedding conventions:
* A byte slice `&[u8]` is a `List Nat` (each entry a byte value; the codec
  functions below produce bytes `< 256` and never inspect anything larger).
* Rust panics (out-of-bounds slicing, `copy_from_slice` length mismatch,
  `try_into().unwrap()`) are modelled by `Option`: `none` is a panic, and a
  panic leaves every storage unchanged (Rust's slicing and `copy_from_slice`
  check lengths before touching any data).
* Fixed-width integers are `Nat` (unsigned) or `Int` (signed, two's
  complement bit pattern when encoded); `f32`/`f64` values are carried as
  their IEEE-754 bit patterns (a `Nat`), because the codec is a pure
  bit-pattern transport (`to_le_bytes`/`from_le_bytes` on the bits, no
  numeric processing).
* Rust's `to_le_bytes` on a `w`-byte type is base-256 little-endian
  serialization of the bit pattern; `to_be_bytes` is its reverse, and
  `from_be_bytes` is `from_le_bytes` of the reversed slice.
-/

namespace Bytesutil

/-- Base-256 little-endian value of a byte list (Rust `from_le_bytes` on the
bit pattern). -/
def bytesToNatLE : List Nat → Nat
  | [] => 0
  | b :: rest => b + 256 * bytesToNatLE rest

/-- The `w` base-256 little-endian digits of `n` (Rust `to_le_bytes` of a
`w`-byte value whose bit pattern is `n`). -/
def natToBytesLE : Nat → Nat → List Nat
  | 0, _ => []
  | w + 1, n => n % 256 :: natToBytesLE w (n / 256)

/-- The closed set of scalar kinds implemented by `impl_bytes!` plus the
hand-written `bool` impls in `src/bytes.rs`. -/
inductive Kind where
  | i8 | u8 | i16 | u16 | i32 | u32 | i64 | u64 | i128 | u128
  | f32 | f64 | boolean
deriving DecidableEq

/-- The byte width of each kind, exactly the sizes given to `impl_bytes!`
(`i8: 1 u8: 1 i16: 2 u16: 2 i32: 4 u32: 4 i64: 8 u64: 8 i128: 16 u128: 16
f32: 4 f64: 8`) and 1 for `bool`. -/
def Kind.width : Kind → Nat
  | .i8 => 1 | .u8 => 1
  | .i16 => 2 | .u16 => 2
  | .i32 => 4 | .u32 => 4
  | .i64 => 8 | .u64 => 8
  | .i128 => 16 | .u128 => 16
  | .f32 => 4 | .f64 => 8
  | .boolean => 1

/-- A value of one of the supported scalar kinds. Unsigned integers carry a
`Nat`, signed integers an `Int`, floats their IEEE-754 bit pattern, booleans
a `Bool`. -/
inductive Scalar where
  | i8 (v : Int) | u8 (v : Nat)
  | i16 (v : Int) | u16 (v : Nat)
  | i32 (v : Int) | u32 (v : Nat)
  | i64 (v : Int) | u64 (v : Nat)
  | i128 (v : Int) | u128 (v : Nat)
  | f32 (bits : Nat) | f64 (bits : Nat)
  | boolean (v : Bool)
deriving DecidableEq

def Scalar.kind : Scalar → Kind
  | .i8 _ => .i8 | .u8 _ => .u8
  | .i16 _ => .i16 | .u16 _ => .u16
  | .i32 _ => .i32 | .u32 _ => .u32
  | .i64 _ => .i64 | .u64 _ => .u64
  | .i128 _ => .i128 | .u128 _ => .u128
  | .f32 _ => .f32 | .f64 _ => .f64
  | .boolean _ => .boolean

def Scalar.width (s : Scalar) : Nat := s.kind.width

/-- The bit pattern a scalar serializes as: unsigned values and float bit
patterns are taken as-is, signed values are reduced to their two's-complement
representative in `[0, 256^w)`, and `bool` writes the byte `1`/`0` exactly as
the source (`true => (1 as u8).write_bytes_le`, `false => 0`). -/
def Scalar.bits : Scalar → Nat
  | .u8 v => v | .u16 v => v | .u32 v => v | .u64 v => v | .u128 v => v
  | .i8 v => (v % (256 : Int)).toNat
  | .i16 v => (v % (256 ^ 2 : Int)).toNat
  | .i32 v => (v % (256 ^ 4 : Int)).toNat
  | .i64 v => (v % (256 ^ 8 : Int)).toNat
  | .i128 v => (v % (256 ^ 16 : Int)).toNat
  | .f32 bits => bits
  | .f64 bits => bits
  | .boolean v => if v then 1 else 0

/-- A scalar is representable: its payload fits the fixed width of its kind
(two's-complement range for signed kinds, `< 256^w` for unsigned kinds and
float bit patterns; every `Bool` is representable). -/
def Scalar.Valid : Scalar → Prop
  | .u8 v => v < 256 ^ 1
  | .u16 v => v < 256 ^ 2
  | .u32 v => v < 256 ^ 4
  | .u64 v => v < 256 ^ 8
  | .u128 v => v < 256 ^ 16
  | .i8 v => -(256 ^ 1 / 2 : Nat) ≤ v ∧ v < (256 ^ 1 / 2 : Nat)
  | .i16 v => -(256 ^ 2 / 2 : Nat) ≤ v ∧ v < (256 ^ 2 / 2 : Nat)
  | .i32 v => -(256 ^ 4 / 2 : Nat) ≤ v ∧ v < (256 ^ 4 / 2 : Nat)
  | .i64 v => -(256 ^ 8 / 2 : Nat) ≤ v ∧ v < (256 ^ 8 / 2 : Nat)
  | .i128 v => -(256 ^ 16 / 2 : Nat) ≤ v ∧ v < (256 ^ 16 / 2 : Nat)
  | .f32 bits => bits < 256 ^ 4
  | .f64 bits => bits < 256 ^ 8
  | .boolean _ => True

/-- Two's-complement reading of a `w`-byte bit pattern `n` (Rust
`from_le_bytes` for a signed type: the value is `n` when the top bit is
clear, `n - 256^w` otherwise). -/
def decodeInt (w : Nat) (n : Nat) : Int :=
  if n < 256 ^ w / 2 then (n : Int) else (n : Int) - (256 ^ w : Nat)

/-- Reassemble a scalar of kind `k` from its `w` little-endian bytes `l`
(the body of each generated `read_bytes_le`, i.e. `from_le_bytes`, and for
`bool` the `match u8::read_bytes_le(bytes) { 0 => false, _ => true }`). -/
def decodeLE (k : Kind) (l : List Nat) : Scalar :=
  match k with
  | .u8 => .u8 (bytesToNatLE l)
  | .u16 => .u16 (bytesToNatLE l)
  | .u32 => .u32 (bytesToNatLE l)
  | .u64 => .u64 (bytesToNatLE l)
  | .u128 => .u128 (bytesToNatLE l)
  | .i8 => .i8 (decodeInt 1 (bytesToNatLE l))
  | .i16 => .i16 (decodeInt 2 (bytesToNatLE l))
  | .i32 => .i32 (decodeInt 4 (bytesToNatLE l))
  | .i64 => .i64 (decodeInt 8 (bytesToNatLE l))
  | .i128 => .i128 (decodeInt 16 (bytesToNatLE l))
  | .f32 => .f32 (bytesToNatLE l)
  | .f64 => .f64 (bytesToNatLE l)
  | .boolean =>
    .boolean (match bytesToNatLE l with
      | 0 => false
      | _ + 1 => true)

/-- Rust `from_be_bytes` is `from_le_bytes` of the reversed byte block. -/
def decodeBE (k : Kind) (l : List Nat) : Scalar := decodeLE k l.reverse

/-- The block `(*self).to_le_bytes()` produced by `write_bytes_le`. -/
def toLeBytes (s : Scalar) : List Nat := natToBytesLE s.width s.bits

/-- The block `self.to_be_bytes()`: the little-endian block reversed. -/
def toBeBytes (s : Scalar) : List Nat := (toLeBytes s).reverse

/-- Rust `bytes[..size].copy_from_slice(&block)`: replaces the first
`block.length` bytes of `bytes`. Panics (`none`) when `bytes` is shorter
than the block — the length check happens before any byte is copied. -/
def copyFromSlice (block : List Nat) (bytes : List Nat) : Option (List Nat) :=
  if block.length ≤ bytes.length then some (block ++ bytes.drop block.length)
  else none

/-- Rust `bytes[..w].try_into().unwrap()`: the first `w` bytes; panics (`none`)
when `bytes` holds fewer than `w`. -/
def takeExact (w : Nat) (bytes : List Nat) : Option (List Nat) :=
  if w ≤ bytes.length then some (bytes.take w) else none

/-- Source `WriteBytes::write_bytes_le` from `src/bytes.rs`: serialize the value's
little-endian block and copy it over the start of `bytes`. -/
def write_bytes_le (s : Scalar) (bytes : List Nat) : Option (List Nat) :=
  copyFromSlice (toLeBytes s) bytes

/-- Source `WriteBytes::write_bytes_be` from `src/bytes.rs`. -/
def write_bytes_be (s : Scalar) (bytes : List Nat) : Option (List Nat) :=
  copyFromSlice (toBeBytes s) bytes

/-- Source `ReadBytes::read_bytes_le` from `src/bytes.rs`: take the first
`width` bytes (panic if too short) and reassemble little-endian. -/
def read_bytes_le (k : Kind) (bytes : List Nat) : Option Scalar :=
  (takeExact k.width bytes).map (decodeLE k)

/-- Source `ReadBytes::read_bytes_be` from `src/bytes.rs`. -/
def read_bytes_be (k : Kind) (bytes : List Nat) : Option Scalar :=
  (takeExact k.width bytes).map (decodeBE k)

/-! ### Buffer view (`src/buffer.rs`)

`ByteBuf<T>` wraps a bytes-like storage; we instantiate the storage with a
byte list (`AsRef<[u8]> + AsMut<[u8]>`). `&self.inner.as_ref()[pos..]`
panics when `pos` exceeds the length, before any codec work happens. -/

structure ByteBuf where
  inner : List Nat
deriving DecidableEq

/-- Slicing `&l[pos..]`: the suffix starting at `pos`; panics (`none`) when
`pos > l.length`. -/
def sliceFrom (l : List Nat) (pos : Nat) : Option (List Nat) :=
  if pos ≤ l.length then some (l.drop pos) else none

/-- Source `ByteBuf::get_le`: `V::read_bytes_le(&self.inner.as_ref()[pos..])`. -/
def ByteBuf.get_le (b : ByteBuf) (k : Kind) (pos : Nat) : Option Scalar :=
  match sliceFrom b.inner pos with
  | none => none
  | some tail => read_bytes_le k tail

/-- Source `ByteBuf::get_be`: `V::read_bytes_be(&self.inner.as_ref()[pos..])`. -/
def ByteBuf.get_be (b : ByteBuf) (k : Kind) (pos : Nat) : Option Scalar :=
  match sliceFrom b.inner pos with
  | none => none
  | some tail => read_bytes_be k tail

/-- Source `ByteBuf::set_le`: `value.write_bytes_le(&mut self.inner.as_mut()[pos..])`.
The write mutates the suffix in place, so the resulting storage is the
untouched prefix followed by the rewritten suffix; the fluent `&mut Self`
return is the updated buffer. -/
def ByteBuf.set_le (b : ByteBuf) (pos : Nat) (v : Scalar) : Option ByteBuf :=
  match sliceFrom b.inner pos with
  | none => none
  | some tail =>
    match write_bytes_le v tail with
    | none => none
    | some tail2 => some ⟨b.inner.take pos ++ tail2⟩

/-- Source `ByteBuf::set_be`: `value.write_bytes_be(&mut self.inner.as_mut()[pos..])`. -/
def ByteBuf.set_be (b : ByteBuf) (pos : Nat) (v : Scalar) : Option ByteBuf :=
  match sliceFrom b.inner pos with
  | none => none
  | some tail =>
    match write_bytes_be v tail with
    | none => none
    | some tail2 => some ⟨b.inner.take pos ++ tail2⟩

/-- Source `impl<T: Copy> From<&T> for ByteBuf<T>` (and the `&mut T` twin):
`Self::new(*value)` — the storage value is dereferenced and copied into the
new buffer, so the `ByteBuf` owns an independent copy of the bytes. -/
def ByteBuf.from_ref (t : List Nat) : ByteBuf := ⟨t⟩

/-- One fluent `set` call in a chain. -/
inductive SetOp where
  | le (pos : Nat) (v : Scalar)
  | be (pos : Nat) (v : Scalar)

/-- Apply a chain of `set` calls left to right (panic aborts the chain). -/
def applyOps (b : ByteBuf) : List SetOp → Option ByteBuf
  | [] => some b
  | .le pos v :: rest =>
    match b.set_le pos v with
    | none => none
    | some b2 => applyOps b2 rest
  | .be pos v :: rest =>
    match b.set_be pos v with
    | none => none
    | some b2 => applyOps b2 rest

/-- The program of claim C10: start from a storage variable `t`, build a
buffer through the copying `From<&T>` impl, run any chain of `set` calls on
the buffer, and return the final contents of the original storage variable
`t` (never written through — the buffer owns a copy) next to the buffer
result. -/
def fromRefProgram (t : List Nat) (ops : List SetOp) : List Nat × Option ByteBuf :=
  let buf := ByteBuf.from_ref t
  (t, applyOps buf ops)

/-! ### Trait `ReadFill::read_fill` (`src/traits.rs`)

The reader is modelled as a queue of chunks: each `read` call pops the next
chunk, truncated to the destination slice's length, and an exhausted reader
returns 0 bytes. Errors are not modelled (the claim is about the `Ok` path).

`read_fill` is translated line by line:
```
let mut bytes = 0;
let mut len = self.read(buf)?;
bytes += len;
while len > 0 && buf.len() - len > 0 {
    len = self.read(&mut buf[len..])?;
    bytes += len;
}
Ok(bytes)
```
Note the loop slices `buf[len..]` and tests `buf.len() - len` with `len`
the LAST read's count, not the running total. -/

/-- Overwrite `l[off .. off + data.length)` with `data` (what `read` does to
the destination slice when it returns `data.length` bytes). -/
def writeAt (l : List Nat) (off : Nat) (data : List Nat) : List Nat :=
  l.take off ++ data ++ l.drop (off + data.length)

/-- The `while` loop of `read_fill`; state is (remaining reader chunks,
buffer contents, `bytes`, `len`). Returns `(bytes, final buffer)`. An empty
chunk queue makes `read` return 0, which zeroes `len` and exits the loop
without touching `bytes` or the buffer. -/
def read_fill_loop (chunks : List (List Nat)) (buf : List Nat)
    (bytes len : Nat) : Nat × List Nat :=
  if 0 < len ∧ 0 < buf.length - len then
    match chunks with
    | [] => (bytes, buf)
    | c :: rest =>
      let data := c.take (buf.length - len)
      read_fill_loop rest (writeAt buf len data) (bytes + data.length)
        data.length
  else (bytes, buf)

/-- Source `ReadFill::read_fill` against the chunk-queue reader model. -/
def read_fill (chunks : List (List Nat)) (buf : List Nat) : Nat × List Nat :=
  match chunks with
  | [] => (0, buf)
  | c :: rest =>
    let data := c.take buf.length
    read_fill_loop rest (writeAt buf 0 data) data.length data.length

/-! ### Basic lemmas about the byte-level primitives -/

theorem natToBytesLE_length (w n : Nat) : (natToBytesLE w n).length = w := by
  induction w generalizing n with
  | zero => rfl
  | succ w ih => simp [natToBytesLE, ih]

theorem bytesToNatLE_natToBytesLE (w n : Nat) :
    bytesToNatLE (natToBytesLE w n) = n % 256 ^ w := by
  induction w generalizing n with
  | zero => simp [natToBytesLE, bytesToNatLE, Nat.mod_one]
  | succ w ih =>
    have h : n % (256 * 256 ^ w) = n % 256 + 256 * (n / 256 % 256 ^ w) :=
      Nat.mod_mul
    simp [natToBytesLE, bytesToNatLE, ih, pow_succ, h, mul_comm (256 ^ w) 256]

theorem toLeBytes_length (s : Scalar) : (toLeBytes s).length = s.width :=
  natToBytesLE_length _ _

theorem toBeBytes_length (s : Scalar) : (toBeBytes s).length = s.width := by
  simp [toBeBytes, toLeBytes_length]

theorem Kind.width_pos (k : Kind) : 0 < k.width := by
  cases k <;> simp [Kind.width]

instance : DecidablePred Scalar.Valid := fun s => by
  cases s <;> simp only [Scalar.Valid] <;> infer_instance

/-- Writing a valid scalar's little-endian block and reassembling it
little-endian recovers the scalar. -/
theorem decodeLE_toLeBytes (s : Scalar) (h : s.Valid) :
    decodeLE s.kind (toLeBytes s) = s := by
  cases s with
  | u8 v =>
    simp only [Scalar.Valid] at h
    norm_num at h
    simp [decodeLE, toLeBytes, Scalar.kind, Scalar.width, Kind.width,
      Scalar.bits, bytesToNatLE_natToBytesLE]
    omega
  | u16 v =>
    simp only [Scalar.Valid] at h
    norm_num at h
    simp [decodeLE, toLeBytes, Scalar.kind, Scalar.width, Kind.width,
      Scalar.bits, bytesToNatLE_natToBytesLE]
    omega
  | u32 v =>
    simp only [Scalar.Valid] at h
    norm_num at h
    simp [decodeLE, toLeBytes, Scalar.kind, Scalar.width, Kind.width,
      Scalar.bits, bytesToNatLE_natToBytesLE]
    omega
  | u64 v =>
    simp only [Scalar.Valid] at h
    norm_num at h
    simp [decodeLE, toLeBytes, Scalar.kind, Scalar.width, Kind.width,
      Scalar.bits, bytesToNatLE_natToBytesLE]
    omega
  | u128 v =>
    simp only [Scalar.Valid] at h
    norm_num at h
    simp [decodeLE, toLeBytes, Scalar.kind, Scalar.width, Kind.width,
      Scalar.bits, bytesToNatLE_natToBytesLE]
    omega
  | f32 v =>
    simp only [Scalar.Valid] at h
    norm_num at h
    simp [decodeLE, toLeBytes, Scalar.kind, Scalar.width, Kind.width,
      Scalar.bits, bytesToNatLE_natToBytesLE]
    omega
  | f64 v =>
    simp only [Scalar.Valid] at h
    norm_num at h
    simp [decodeLE, toLeBytes, Scalar.kind, Scalar.width, Kind.width,
      Scalar.bits, bytesToNatLE_natToBytesLE]
    omega
  | i8 v =>
    simp only [Scalar.Valid] at h
    simp only [decodeLE, toLeBytes, Scalar.kind, Scalar.width, Kind.width,
      Scalar.bits, bytesToNatLE_natToBytesLE, decodeInt, Scalar.i8.injEq]
    norm_num at h ⊢
    split <;> omega
  | i16 v =>
    simp only [Scalar.Valid] at h
    simp only [decodeLE, toLeBytes, Scalar.kind, Scalar.width, Kind.width,
      Scalar.bits, bytesToNatLE_natToBytesLE, decodeInt, Scalar.i16.injEq]
    norm_num at h ⊢
    split <;> omega
  | i32 v =>
    simp only [Scalar.Valid] at h
    simp only [decodeLE, toLeBytes, Scalar.kind, Scalar.width, Kind.width,
      Scalar.bits, bytesToNatLE_natToBytesLE, decodeInt, Scalar.i32.injEq]
    norm_num at h ⊢
    split <;> omega
  | i64 v =>
    simp only [Scalar.Valid] at h
    simp only [decodeLE, toLeBytes, Scalar.kind, Scalar.width, Kind.width,
      Scalar.bits, bytesToNatLE_natToBytesLE, decodeInt, Scalar.i64.injEq]
    norm_num at h ⊢
    split <;> omega
  | i128 v =>
    simp only [Scalar.Valid] at h
    simp only [decodeLE, toLeBytes, Scalar.kind, Scalar.width, Kind.width,
      Scalar.bits, bytesToNatLE_natToBytesLE, decodeInt, Scalar.i128.injEq]
    norm_num at h ⊢
    split <;> omega
  | boolean v => cases v <;> decide

/-- The big-endian round trip at the block level reduces to the
little-endian one because both sides reverse. -/
theorem decodeBE_toBeBytes (s : Scalar) (h : s.Valid) :
    decodeBE s.kind (toBeBytes s) = s := by
  simpa [decodeBE, toBeBytes] using decodeLE_toLeBytes s h

theorem write_bytes_le_eq (s : Scalar) (bytes : List Nat)
    (h : s.width ≤ bytes.length) :
    write_bytes_le s bytes = some (toLeBytes s ++ bytes.drop s.width) := by
  simp [write_bytes_le, copyFromSlice, toLeBytes_length, h]

theorem write_bytes_be_eq (s : Scalar) (bytes : List Nat)
    (h : s.width ≤ bytes.length) :
    write_bytes_be s bytes = some (toBeBytes s ++ bytes.drop s.width) := by
  simp [write_bytes_be, copyFromSlice, toBeBytes_length, h]

theorem read_bytes_le_eq (k : Kind) (bytes : List Nat)
    (h : k.width ≤ bytes.length) :
    read_bytes_le k bytes = some (decodeLE k (bytes.take k.width)) := by
  simp [read_bytes_le, takeExact, h]

theorem read_bytes_be_eq (k : Kind) (bytes : List Nat)
    (h : k.width ≤ bytes.length) :
    read_bytes_be k bytes = some (decodeBE k (bytes.take k.width)) := by
  simp [read_bytes_be, takeExact, h]

/-! ### Panic characterizations -/

theorem read_bytes_le_none_iff (k : Kind) (bytes : List Nat) :
    read_bytes_le k bytes = none ↔ bytes.length < k.width := by
  simp [read_bytes_le, takeExact]

theorem read_bytes_be_none_iff (k : Kind) (bytes : List Nat) :
    read_bytes_be k bytes = none ↔ bytes.length < k.width := by
  simp [read_bytes_be, takeExact]

theorem write_bytes_le_none_iff (s : Scalar) (bytes : List Nat) :
    write_bytes_le s bytes = none ↔ bytes.length < s.width := by
  simp [write_bytes_le, copyFromSlice, toLeBytes_length]

theorem write_bytes_be_none_iff (s : Scalar) (bytes : List Nat) :
    write_bytes_be s bytes = none ↔ bytes.length < s.width := by
  simp [write_bytes_be, copyFromSlice, toBeBytes_length]

theorem get_le_none_iff (b : ByteBuf) (k : Kind) (pos : Nat) :
    b.get_le k pos = none ↔ b.inner.length < pos + k.width := by
  by_cases hp : pos ≤ b.inner.length
  · simp [ByteBuf.get_le, sliceFrom, hp, read_bytes_le_none_iff]
    omega
  · simp [ByteBuf.get_le, sliceFrom, hp]
    omega

theorem get_be_none_iff (b : ByteBuf) (k : Kind) (pos : Nat) :
    b.get_be k pos = none ↔ b.inner.length < pos + k.width := by
  by_cases hp : pos ≤ b.inner.length
  · simp [ByteBuf.get_be, sliceFrom, hp, read_bytes_be_none_iff]
    omega
  · simp [ByteBuf.get_be, sliceFrom, hp]
    omega

theorem set_le_none_iff (b : ByteBuf) (pos : Nat) (s : Scalar) :
    b.set_le pos s = none ↔ b.inner.length < pos + s.width := by
  by_cases hp : pos ≤ b.inner.length
  · by_cases hw : s.width ≤ b.inner.length - pos
    · rw [ByteBuf.set_le]
      simp only [sliceFrom, hp, if_true]
      rw [write_bytes_le_eq s _ (by simpa using hw)]
      simp
      omega
    · rw [ByteBuf.set_le]
      simp only [sliceFrom, hp, if_true]
      have : write_bytes_le s (b.inner.drop pos) = none := by
        rw [write_bytes_le_none_iff]
        simpa using hw
      simp [this]
      omega
  · simp [ByteBuf.set_le, sliceFrom, hp]
    omega

theorem set_be_none_iff (b : ByteBuf) (pos : Nat) (s : Scalar) :
    b.set_be pos s = none ↔ b.inner.length < pos + s.width := by
  by_cases hp : pos ≤ b.inner.length
  · by_cases hw : s.width ≤ b.inner.length - pos
    · rw [ByteBuf.set_be]
      simp only [sliceFrom, hp, if_true]
      rw [write_bytes_be_eq s _ (by simpa using hw)]
      simp
      omega
    · rw [ByteBuf.set_be]
      simp only [sliceFrom, hp, if_true]
      have : write_bytes_be s (b.inner.drop pos) = none := by
        rw [write_bytes_be_none_iff]
        simpa using hw
      simp [this]
      omega
  · simp [ByteBuf.set_be, sliceFrom, hp]
    omega

/-- In-bounds `set_le` computed: untouched prefix, then the little-endian
block, then the untouched tail. -/
theorem set_le_eq (b : ByteBuf) (pos : Nat) (s : Scalar)
    (h : pos + s.width ≤ b.inner.length) :
    b.set_le pos s =
      some ⟨b.inner.take pos ++ (toLeBytes s ++ b.inner.drop (pos + s.width))⟩ := by
  rw [ByteBuf.set_le]
  simp only [sliceFrom, if_pos (by omega : pos ≤ b.inner.length)]
  rw [write_bytes_le_eq s _ (by simp; omega)]
  simp [List.drop_drop, Nat.add_comm pos s.width]

/-- In-bounds `set_be` computed. -/
theorem set_be_eq (b : ByteBuf) (pos : Nat) (s : Scalar)
    (h : pos + s.width ≤ b.inner.length) :
    b.set_be pos s =
      some ⟨b.inner.take pos ++ (toBeBytes s ++ b.inner.drop (pos + s.width))⟩ := by
  rw [ByteBuf.set_be]
  simp only [sliceFrom, if_pos (by omega : pos ≤ b.inner.length)]
  rw [write_bytes_be_eq s _ (by simp; omega)]
  simp [List.drop_drop, Nat.add_comm pos s.width]

/-! ### The claims -/

/-- C1: for every supported scalar kind and both byte orders, decoding the
bytes produced by encoding any representable value `s` into a sufficiently
large buffer yields `s` back exactly — `read_bytes_le(write_bytes_le(s)) = s`
and `read_bytes_be(write_bytes_be(s)) = s`, covering 0, minimum/maximum
integer values, arbitrary (e.g. NaN/Infinity) float bit patterns exactly,
and both booleans. -/
theorem c1_roundtrip (s : Scalar) (bytes : List Nat) (hv : s.Valid)
    (hb : s.width ≤ bytes.length) :
    (write_bytes_le s bytes).bind (read_bytes_le s.kind) = some s ∧
    (write_bytes_be s bytes).bind (read_bytes_be s.kind) = some s := by
  constructor
  · rw [write_bytes_le_eq s bytes hb]
    show read_bytes_le s.kind (toLeBytes s ++ bytes.drop s.width) = some s
    rw [read_bytes_le_eq _ _ (by simp [toLeBytes_length, Scalar.width]),
      List.take_left' (by simp [toLeBytes_length, Scalar.width]),
      decodeLE_toLeBytes s hv]
  · rw [write_bytes_be_eq s bytes hb]
    show read_bytes_be s.kind (toBeBytes s ++ bytes.drop s.width) = some s
    rw [read_bytes_be_eq _ _ (by simp [toBeBytes_length, Scalar.width]),
      List.take_left' (by simp [toBeBytes_length, Scalar.width]),
      decodeBE_toBeBytes s hv]

/-- Witness for C1 at a concrete input: the signed value `-2` of kind `i16`
round-trips through a 3-byte buffer in both orders. -/
theorem c1_roundtrip_witness :
    (write_bytes_le (.i16 (-2)) [7, 7, 7]).bind (read_bytes_le (Scalar.i16 (-2)).kind)
      = some (.i16 (-2)) ∧
    (write_bytes_be (.i16 (-2)) [7, 7, 7]).bind (read_bytes_be (Scalar.i16 (-2)).kind)
      = some (.i16 (-2)) :=
  c1_roundtrip (.i16 (-2)) [7, 7, 7] (by exact ⟨by decide, by decide⟩) (by decide)

/-- C2: for every supported kind of width `W` and every storage of length
`L`, `ByteBuf::get_le/get_be/set_le/set_be` at offset `pos` panic (`none`)
exactly when `pos + W > L` — including `pos = L` — and complete normally
(`isSome`) exactly when `pos + W ≤ L`; nothing is silently truncated since
`none` is the only other outcome. -/
theorem c2_boundary_fault (k : Kind) (s : Scalar) (b : ByteBuf) (pos : Nat) :
    (b.get_le k pos = none ↔ b.inner.length < pos + k.width) ∧
    (b.get_be k pos = none ↔ b.inner.length < pos + k.width) ∧
    (b.set_le pos s = none ↔ b.inner.length < pos + s.width) ∧
    (b.set_be pos s = none ↔ b.inner.length < pos + s.width) :=
  ⟨get_le_none_iff b k pos, get_be_none_iff b k pos,
    set_le_none_iff b pos s, set_be_none_iff b pos s⟩

/-- C3: boolean decoding is widening — a first byte `v` decodes to `false`
iff `v = 0` and to `true` for every non-zero `v`, in both byte orders, and
never fails for an in-bounds (non-empty) buffer. -/
theorem c3_bool_widening (bytes : List Nat) (v : Nat)
    (h : bytes.head? = some v) :
    read_bytes_le .boolean bytes = some (.boolean (v != 0)) ∧
    read_bytes_be .boolean bytes = some (.boolean (v != 0)) := by
  cases bytes with
  | nil => simp at h
  | cons x rest =>
    simp only [List.head?_cons, Option.some.injEq] at h
    subst h
    simp only [read_bytes_le, read_bytes_be, takeExact, Kind.width,
      List.length_cons, Nat.le_add_left, if_pos, List.take_succ_cons,
      List.take_zero, Option.map_some, decodeBE, decodeLE, List.reverse_cons,
      List.reverse_nil, List.nil_append, bytesToNatLE]
    cases x <;> simp [decodeLE, decodeBE, bytesToNatLE]

/-- Witness for C3 at the concrete byte 5 (non-zero, not 1): both orders
decode to `true`. -/
theorem c3_bool_widening_witness :
    read_bytes_le .boolean [5] = some (.boolean ((5 : Nat) != 0)) ∧
    read_bytes_be .boolean [5] = some (.boolean ((5 : Nat) != 0)) :=
  c3_bool_widening [5] 5 rfl

/-- C5: a `set_le`/`set_be` whose `pos + width` exceeds the storage length
panics without producing any updated storage (`none` — the length checks in
slicing and `copy_from_slice` run before a single byte is copied), so the
storage is exactly unchanged; it never writes only the bytes that fit. -/
theorem c5_no_partial_write (s : Scalar) (b : ByteBuf) (pos : Nat)
    (h : b.inner.length < pos + s.width) :
    b.set_le pos s = none ∧ b.set_be pos s = none :=
  ⟨(set_le_none_iff b pos s).mpr h, (set_be_none_iff b pos s).mpr h⟩

/-- Witness for C5: writing a `u16` at offset 1 of a 2-byte storage (one
byte would fit, the second would not) panics in both orders. -/
theorem c5_no_partial_write_witness :
    ByteBuf.set_le ⟨[9, 9]⟩ 1 (.u16 513) = none ∧
    ByteBuf.set_be ⟨[9, 9]⟩ 1 (.u16 513) = none :=
  c5_no_partial_write (.u16 513) ⟨[9, 9]⟩ 1 (by decide)

/-- Frame property of an in-place block write at `pos`: length is preserved
and every index outside `[pos, pos + W)` is untouched. -/
theorem writeFrame (l block : List Nat) (pos W : Nat) (hW : block.length = W)
    (h : pos + W ≤ l.length) :
    (l.take pos ++ (block ++ l.drop (pos + W))).length = l.length ∧
    ∀ i, i < pos ∨ pos + W ≤ i →
      (l.take pos ++ (block ++ l.drop (pos + W)))[i]? = l[i]? := by
  have hlt : (l.take pos).length = pos := by
    rw [List.length_take]; omega
  constructor
  · simp only [List.length_append, List.length_take, List.length_drop, hW]
    omega
  · intro i hi
    rcases hi with hi | hi
    · rw [List.getElem?_append_left (by omega : i < (l.take pos).length),
        List.getElem?_take_of_lt hi]
    · rw [List.getElem?_append_right (by omega : (l.take pos).length ≤ i), hlt,
        List.getElem?_append_right (by omega : block.length ≤ i - pos), hW,
        List.getElem?_drop]
      congr 1
      omega

/-- C4 (offset independence): a successful `set_le` or `set_be` of a scalar
of width `W` at offset `pos` preserves the storage length and leaves every
byte outside `[pos, pos + W)` exactly as it was. -/
theorem c4_offset_independence (s : Scalar) (b b' : ByteBuf) (pos : Nat)
    (h : b.set_le pos s = some b' ∨ b.set_be pos s = some b') :
    b'.inner.length = b.inner.length ∧
    ∀ i, i < pos ∨ pos + s.width ≤ i → b'.inner[i]? = b.inner[i]? := by
  rcases h with h | h
  · have hb : pos + s.width ≤ b.inner.length := by
      by_contra hc
      rw [(set_le_none_iff b pos s).mpr (by omega)] at h
      exact Option.noConfusion h
    rw [set_le_eq b pos s hb] at h
    obtain rfl : b' = ⟨b.inner.take pos ++ (toLeBytes s ++ b.inner.drop (pos + s.width))⟩ :=
      (Option.some.inj h).symm
    exact writeFrame b.inner (toLeBytes s) pos s.width (toLeBytes_length s) hb
  · have hb : pos + s.width ≤ b.inner.length := by
      by_contra hc
      rw [(set_be_none_iff b pos s).mpr (by omega)] at h
      exact Option.noConfusion h
    rw [set_be_eq b pos s hb] at h
    obtain rfl : b' = ⟨b.inner.take pos ++ (toBeBytes s ++ b.inner.drop (pos + s.width))⟩ :=
      (Option.some.inj h).symm
    exact writeFrame b.inner (toBeBytes s) pos s.width (toBeBytes_length s) hb

/-- Witness for C4: writing `u8 7` at offset 1 of `[9,9,9,9]` gives
`[9,7,9,9]`; the byte at index 3 (outside `[1,2)`) is untouched. -/
theorem c4_offset_independence_witness :
    (⟨[9, 7, 9, 9]⟩ : ByteBuf).inner[3]? = (⟨[9, 9, 9, 9]⟩ : ByteBuf).inner[3]? :=
  (c4_offset_independence (.u8 7) ⟨[9, 9, 9, 9]⟩ ⟨[9, 7, 9, 9]⟩ 1
    (Or.inl (by decide))).2 3 (Or.inr (by decide))

/-- Reads that agree on their first `width` bytes agree. -/
theorem read_eq_of_take_eq (k : Kind) (xs ys : List Nat)
    (hx : k.width ≤ xs.length) (hpre : xs.take k.width = ys.take k.width) :
    read_bytes_le k xs = read_bytes_le k ys ∧
    read_bytes_be k xs = read_bytes_be k ys := by
  have hy : k.width ≤ ys.length := by
    have h := congrArg List.length hpre
    simp only [List.length_take] at h
    omega
  constructor
  · rw [read_bytes_le_eq k xs hx, read_bytes_le_eq k ys hy, hpre]
  · rw [read_bytes_be_eq k xs hx, read_bytes_be_eq k ys hy, hpre]

/-- C6: decoding reads exactly the first `width` bytes — two buffers that
agree on their first `width` bytes decode identically in both orders, and
consequently `ByteBuf::get_le/get_be` at offset `pos` depend only on the
bytes in `[pos, pos + width)` of the storage. -/
theorem c6_reads_first_width_bytes (k : Kind) (bytes bytes' : List Nat)
    (hlen : k.width ≤ bytes.length)
    (hpre : bytes.take k.width = bytes'.take k.width) :
    (read_bytes_le k bytes = read_bytes_le k bytes' ∧
     read_bytes_be k bytes = read_bytes_be k bytes') ∧
    ∀ (b b' : ByteBuf) (pos : Nat),
      pos + k.width ≤ b.inner.length → pos + k.width ≤ b'.inner.length →
      (b.inner.drop pos).take k.width = (b'.inner.drop pos).take k.width →
      b.get_le k pos = b'.get_le k pos ∧ b.get_be k pos = b'.get_be k pos := by
  refine ⟨read_eq_of_take_eq k bytes bytes' hlen hpre, ?_⟩
  intro b b' pos h1 h2 hslice
  have e1 : b.get_le k pos = read_bytes_le k (b.inner.drop pos) := by
    simp [ByteBuf.get_le, sliceFrom, (by omega : pos ≤ b.inner.length)]
  have e2 : b'.get_le k pos = read_bytes_le k (b'.inner.drop pos) := by
    simp [ByteBuf.get_le, sliceFrom, (by omega : pos ≤ b'.inner.length)]
  have e3 : b.get_be k pos = read_bytes_be k (b.inner.drop pos) := by
    simp [ByteBuf.get_be, sliceFrom, (by omega : pos ≤ b.inner.length)]
  have e4 : b'.get_be k pos = read_bytes_be k (b'.inner.drop pos) := by
    simp [ByteBuf.get_be, sliceFrom, (by omega : pos ≤ b'.inner.length)]
  have core := read_eq_of_take_eq k (b.inner.drop pos) (b'.inner.drop pos)
    (by simp [List.length_drop]; omega) hslice
  exact ⟨by rw [e1, e2, core.1], by rw [e3, e4, core.2]⟩

/-- Witness for C6: `[1,2,3]` and `[1,2,9,9]` agree on their first two
bytes, so `u16` reads agree in both orders. -/
theorem c6_reads_first_width_bytes_witness :
    read_bytes_le .u16 [1, 2, 3] = read_bytes_le .u16 [1, 2, 9, 9] ∧
    read_bytes_be .u16 [1, 2, 3] = read_bytes_be .u16 [1, 2, 9, 9] :=
  (c6_reads_first_width_bytes .u16 [1, 2, 3] [1, 2, 9, 9]
    (by decide) (by decide)).1

/-- C7 (cross-order distinctness): for a multi-byte scalar whose
little-endian block differs from its own reversal, the little-endian and
big-endian writes produce different buffers. -/
theorem c7_cross_order_distinct (s : Scalar) (bytes : List Nat)
    (_hw : 2 ≤ s.width) (hne : toLeBytes s ≠ (toLeBytes s).reverse)
    (hlen : s.width ≤ bytes.length) :
    write_bytes_le s bytes ≠ write_bytes_be s bytes := by
  rw [write_bytes_le_eq s bytes hlen, write_bytes_be_eq s bytes hlen]
  intro h
  exact hne (List.append_cancel_right (Option.some.inj h))

/-- Witness for C7: `u16 1` encodes as `[1,0]` little-endian and `[0,1]`
big-endian. -/
theorem c7_cross_order_distinct_witness :
    write_bytes_le (.u16 1) [0, 0] ≠ write_bytes_be (.u16 1) [0, 0] :=
  c7_cross_order_distinct (.u16 1) [0, 0] (by decide) (by decide) (by decide)

/-- C8 (chaining scenario): on a 16-byte zero-filled storage, chaining
`set_le(0, i32 42)` with `set_be(8, f64 42.42)` (42.42 has IEEE-754 bit
pattern 4631166901565532406) applies both writes in order; afterwards
`get_le::<i32>(0) = 42`, `get_be::<f64>(8) = 42.42`, and bytes `[4..8]` are
still zero. Chaining through the fluent `&mut Self` return is modelled by
`Option.bind` on the updated buffer. -/
theorem c8_chaining_scenario : ∃ b2 : ByteBuf,
    ((ByteBuf.mk (List.replicate 16 0)).set_le 0 (.i32 42)).bind
        (fun b1 => b1.set_be 8 (.f64 4631166901565532406)) = some b2 ∧
    b2.get_le .i32 0 = some (.i32 42) ∧
    b2.get_be .f64 8 = some (.f64 4631166901565532406) ∧
    (b2.inner.drop 4).take 4 = [0, 0, 0, 0] := by
  refine ⟨⟨[42, 0, 0, 0, 0, 0, 0, 0, 64, 69, 53, 194, 143, 92, 40, 246]⟩,
    ?_, ?_, ?_, ?_⟩ <;> decide

/-- C9: evaluation of `ReadFill::read_fill` at the failing input — a reader
delivering four single-byte reads `1, 2, 3, 4` into a 3-byte buffer. The
loop slices `buf[len..]` with `len` the LAST read's count instead of the
running total, so reads 2, 3 and 4 all land at index 1, each overwriting
the previous one, and the returned count 4 exceeds the buffer length 3.
The claimed behavior (resume each read right after the bytes already
filled, stop when the buffer is full) would return 3 with buffer
`[1, 2, 3]`. -/
theorem c9_read_fill_failing_input :
    read_fill [[1], [2], [3], [4]] [0, 0, 0] = (4, [1, 4, 0]) ∧
    (4, [1, 4, 0]) ≠ (3, [1, 2, 3]) := by
  constructor
  · decide
  · decide

/-- C10: the `From<&T>`/`From<&mut T>` impls for `Copy` storages copy the
storage value (`Self::new(*value)`), so the buffer owns an independent copy:
after any chain of `set_le`/`set_be` calls on the buffer built from a
reference to `t`, the original storage `t` still holds exactly its original
bytes (first component of the program state), and the freshly built buffer
starts with a byte-for-byte copy of `t`. -/
theorem c10_from_ref_copies (t : List Nat) (ops : List SetOp) :
    (fromRefProgram t ops).1 = t ∧ (ByteBuf.from_ref t).inner = t :=
  ⟨rfl, rfl⟩

end Bytesutil
